import Mathlib

/-
Verification development for two utilities of the symbiflow-arch-defs
repository:

  utils/split_inouts.py   : splits inout top-level ports of a Yosys JSON
                            netlist into separate input and output ports.
  utils/vpr_io_place.py   : builds a VPR .place constraint table from net
                            names, coordinates and a net-to-block map.

The Python dictionaries (which preserve insertion order) are embedded as
association lists together with the three dictionary operations used by the
scripts: lookup, assignment (replace in place or append) and deletion.
Python sets of integers are embedded as Finset over the naturals.  Fallible
operations (KeyError, IndexError, failed assert statements, the fatal exit
on conflicting constraints) are embedded with Option and Except.
-/

deriving instance DecidableEq for Except

/-- Lookup in an ordered dictionary, embedding the Python expression d[k]
(as Option) and the test k in d. -/
def dictGet {κ β : Type} [DecidableEq κ] (l : List (κ × β)) (k : κ) : Option β :=
  match l with
  | [] => none
  | p :: rest => if p.1 = k then some p.2 else dictGet rest k

/-- Assignment d[k] = v on an ordered dictionary: replaces the value in
place when the key is present, otherwise appends the pair at the end. -/
def dictInsert {κ β : Type} [DecidableEq κ] (l : List (κ × β)) (k : κ) (v : β) :
    List (κ × β) :=
  if l.any (fun p => p.1 == k) then
    l.map (fun p => if p.1 = k then (k, v) else p)
  else
    l ++ [(k, v)]

/-- Deletion del d[k] on an ordered dictionary. -/
def dictErase {κ β : Type} [DecidableEq κ] (l : List (κ × β)) (k : κ) : List (κ × β) :=
  l.filter (fun p => ¬ p.1 = k)

namespace Netlist

/-- One entry of a bits list in the Yosys JSON format: either an integer
net id or a constant literal string. -/
inductive Bit where
  | net (n : ℕ)
  | const (s : String)
deriving DecidableEq, Repr

/-- Attribute values in the Yosys JSON format. -/
inductive AttrVal where
  | int (i : Int)
  | str (s : String)
deriving DecidableEq, Repr

/-- A module port: direction (input, output or inout) and its bits. -/
structure Port where
  direction : String
  bits : List Bit
deriving DecidableEq, Repr

/-- A netname entry: hide_name flag, bits and attributes. -/
structure Netname where
  hide_name : ℕ
  bits : List Bit
  attributes : List (String × AttrVal)
deriving DecidableEq, Repr

/-- A cell instance: type, port directions and connections. -/
structure Cell where
  type : String
  port_directions : List (String × String)
  connections : List (String × List Bit)
deriving DecidableEq, Repr

/-- A module of the design. -/
structure Module where
  attributes : List (String × AttrVal)
  ports : List (String × Port)
  cells : List (String × Cell)
  netnames : List (String × Netname)
deriving DecidableEq, Repr

/-- A whole design: the modules dictionary. -/
structure Design where
  modules : List (String × Module)
deriving DecidableEq, Repr

/-- Test performed by find_top_module on one module:
"top" in attrs and attrs["top"] == 1. -/
def is_top (m : Module) : Bool :=
  dictGet m.attributes "top" = some (AttrVal.int 1)

/-- Embedding of find_top_module: returns the name of the first module
whose attributes mark it as top, or None. -/
def find_top_module (d : Design) : Option String :=
  (d.modules.find? (fun p => is_top p.2)).map Prod.fst

/-- Embedding of get_port_nets: the set of integer net indices used by the
bits of a port. -/
def get_port_nets (p : Port) : Finset ℕ :=
  (p.bits.filterMap (fun b => match b with | Bit.net n => some n | Bit.const _ => none)).toFinset

/-- Embedding of sorted(list(nets)): the ascending sorted list of the
elements of the set.  Implemented with insertion sort so that concrete
instances compute by kernel reduction; the result is the unique ascending
enumeration of the set, independent of the sorting algorithm. -/
def pysorted (s : Finset ℕ) : List ℕ :=
  Quot.liftOn s.val (List.insertionSort (· ≤ ·)) (fun l l' h =>
    List.eq_of_perm_of_sorted
      ((List.perm_insertionSort _ l).trans (h.trans (List.perm_insertionSort _ l').symm))
      (List.sorted_insertionSort _ l) (List.sorted_insertionSort _ l'))

/-- Gap scan of get_free_net: walks adjacent pairs of the sorted id list
and returns n0 + 1 at the first gap. -/
def findGap : List ℕ → Option ℕ
  | n0 :: n1 :: rest => if n1 ≠ n0 + 1 then some (n0 + 1) else findGap (n1 :: rest)
  | _ => none

/-- Embedding of get_free_net: sorts the occupied set, returns the first
gap if any, otherwise the last (largest) element plus one.  On the empty
set the Python code raises IndexError on sorted_nets[-1]; this is the none
case. -/
def get_free_net (nets : Finset ℕ) : Option ℕ :=
  let sorted_nets := pysorted nets
  match findGap sorted_nets with
  | some g => some g
  | none =>
    match sorted_nets.getLast? with
    | some m => some (m + 1)
    | none => none

/-- One entry of net_map: the fresh ids recorded under the keys i and o
(dir[0] for dir in input, output). -/
structure NetEntry where
  i : Option ℕ
  o : Option ℕ
deriving DecidableEq, Repr

/-- Update of net_map[n][dir[0]] = v, creating the inner dictionary when
the key n is absent. -/
def setDir (e : Option NetEntry) (dir : String) (v : ℕ) : NetEntry :=
  let e0 := e.getD ⟨none, none⟩
  if dir = "input" then { e0 with i := some v } else { e0 with o := some v }

/-- Mutable state threaded through the splitting loops: the occupied net
id set, the net map under construction, and the log of all ids returned by
get_free_net so far (the ids printed by the script as Mapping net n to m). -/
structure SplitState where
  nets : Finset ℕ
  net_map : List (ℕ × NetEntry)
  trace : List ℕ

/-- Inner loop of find_and_split_inout_ports over the bits of one inout
port for one direction: every integer bit gets a fresh id from
get_free_net (recorded in net_map and added to the occupied set), constant
bits are copied verbatim.  none embeds the IndexError raised by
get_free_net on an empty occupied set. -/
def splitBits (dir : String) (st : SplitState) : List Bit → Option (List Bit × SplitState)
  | [] => some ([], st)
  | Bit.const s :: rest =>
    match splitBits dir st rest with
    | some (bits, st') => some (Bit.const s :: bits, st')
    | none => none
  | Bit.net n :: rest =>
    match get_free_net st.nets with
    | none => none
    | some mapped =>
      let st' : SplitState :=
        { nets := insert mapped st.nets,
          net_map := dictInsert st.net_map n (setDir (dictGet st.net_map n) dir mapped),
          trace := st.trace ++ [mapped] }
      match splitBits dir st' rest with
      | some (bits, st'') => some (Bit.net mapped :: bits, st'')
      | none => none

/-- State of the outer loop of find_and_split_inout_ports over the inout
ports. -/
structure LoopState where
  ports : List (String × Port)
  new_ports : List (String × Port)
  port_map : List (String × String)
  split : SplitState

/-- Outer loop of find_and_split_inout_ports: for each inout port, remove
it from the module ports, subtract its net ids from the occupied set, and
build the two new ports (input first, then output) with fresh net ids. -/
def processInouts : List (String × Port) → LoopState → Option LoopState
  | [], ls => some ls
  | (name, port) :: rest, ls =>
    let ports1 := dictErase ls.ports name
    let nets1 := ls.split.nets \ get_port_nets port
    match splitBits "input" ⟨nets1, ls.split.net_map, ls.split.trace⟩ port.bits with
    | none => none
    | some (bits_i, st1) =>
      let nameInp := name ++ "_$inp"
      match splitBits "output" st1 port.bits with
      | none => none
      | some (bits_o, st2) =>
        let nameOut := name ++ "_$out"
        processInouts rest
          { ports := ports1,
            new_ports := dictInsert (dictInsert ls.new_ports nameInp ⟨"input", bits_i⟩)
              nameOut ⟨"output", bits_o⟩,
            port_map := ls.port_map ++ [(name, nameInp), (name, nameOut)],
            split := st2 }

/-- Test b in net_map used by the netname cleanup: only integer bits can
be keys of net_map. -/
def netMapHasKey (nm : List (ℕ × NetEntry)) (b : Bit) : Bool :=
  match b with
  | Bit.net n => nm.any (fun p => p.1 == n)
  | Bit.const _ => false

/-- Test for an integer bit. -/
def isIntBit : Bit → Bool
  | Bit.net _ => true
  | Bit.const _ => false

/-- Netname cleanup of find_and_split_inout_ports: netnames named like a
removed inout port are deleted; in the remaining netnames every bit that is
a key of net_map is replaced by the literal "x" placeholder and netnames
left without any integer bit are deleted; finally one netname is added per
new port, mirroring its bits. -/
def cleanupNetnames (netnames : List (String × Netname)) (inouts : List (String × Port))
    (nm : List (ℕ × NetEntry)) (new_ports : List (String × Port)) :
    List (String × Netname) :=
  let n1 := netnames.filter (fun p => ¬ inouts.any (fun q => q.1 == p.1))
  let remap := fun (b : Bit) => if netMapHasKey nm b then Bit.const "\"x\"" else b
  let n2 := (n1.map (fun p => (p.1, { p.2 with bits := p.2.bits.map remap }))).filter
    (fun p => p.2.bits.any isIntBit)
  new_ports.foldl (fun acc p => dictInsert acc p.1 ⟨0, p.2.bits, []⟩) n2

/-- Result of one run of find_and_split_inout_ports: the mutated module,
the diagnostic port map, the net map, and the allocation log (every id
returned by get_free_net during the run, in order). -/
structure SplitResult where
  module : Module
  port_map : List (String × String)
  net_map : List (ℕ × NetEntry)
  trace : List ℕ
deriving DecidableEq, Repr

/-- Failure modes of the splitting pipeline: KeyError on the module lookup
(in particular design["modules"][None] when no top module was found) and
IndexError inside get_free_net on an empty occupied set. -/
inductive SplitErr where
  | keyError
  | indexError
deriving DecidableEq, Repr

/-- Union of the net ids of all ports of a list, in the iteration order of
the loop nets |= get_port_nets(port). -/
def portsNets (l : List (String × Port)) : Finset ℕ :=
  l.foldl (fun acc p => acc ∪ get_port_nets p.2) ∅

/-- Embedding of find_and_split_inout_ports.  The module name argument is
the value returned by find_top_module, hence an Option; a missing key
raises KeyError.  Returns the mutated module together with port_map,
net_map and the allocation log. -/
def find_and_split_inout_ports (design : Design) (module_name : Option String) :
    Except SplitErr SplitResult :=
  match module_name with
  | none => Except.error SplitErr.keyError
  | some mname =>
    match dictGet design.modules mname with
    | none => Except.error SplitErr.keyError
    | some module =>
      let nets0 := portsNets module.ports
      let inouts := module.ports.filter (fun p => p.2.direction == "inout")
      match processInouts inouts ⟨module.ports, [], [], ⟨nets0, [], []⟩⟩ with
      | none => Except.error SplitErr.indexError
      | some ls =>
        let ports' := ls.new_ports.foldl (fun acc p => dictInsert acc p.1 p.2) ls.ports
        let netnames' := cleanupNetnames module.netnames inouts ls.split.net_map ls.new_ports
        Except.ok ⟨{ module with ports := ports', netnames := netnames' },
          ls.port_map, ls.split.net_map, ls.split.trace⟩

/-- The part of main that decides the claims: find the top module and run
the splitter on it. -/
def run_split (design : Design) : Except SplitErr SplitResult :=
  find_and_split_inout_ports design (find_top_module design)

/-- Net ids of the ports that are not inout (the ids that remain attached
to untouched ports during a split run). -/
def nonInoutIds (m : Module) : Finset ℕ :=
  portsNets (m.ports.filter (fun p => ¬ p.2.direction == "inout"))

end Netlist

namespace VprPlace

/-- Recognizes the 5-character direction tags of INOUT_REGEX at the head
of a character list. -/
def startsWithTag (cs : List Char) : Option (List Char × List Char) :=
  if cs.take 5 = "_$inp".data then some ("_$inp".data, cs.drop 5)
  else if cs.take 5 = "_$out".data then some ("_$out".data, cs.drop 5)
  else none

/-- Matching of INOUT_REGEX, the pattern (.+)(_\x24inp|_\x24out)(.*)
anchored on both sides: the greedy first group selects the last occurrence
of a direction tag that is preceded by at least one character.  Returns
the three groups. -/
def inoutAux : List Char → Option (List Char × List Char × List Char)
  | [] => none
  | c :: rest =>
    match inoutAux rest with
    | some (g1, g2, g3) => some (c :: g1, g2, g3)
    | none =>
      match startsWithTag rest with
      | some (g2, g3) => some ([c], g2, g3)
      | none => none

/-- The alias computed in read_io_list_from_eblif for a matching net name:
group(1) + group(3); none when INOUT_REGEX does not match. -/
def inoutAlias (net : String) : Option String :=
  match inoutAux net.data with
  | some (g1, _, g3) => some ⟨g1 ++ g3⟩
  | none => none

/-- Matching of NETNAME_REGEX, the pattern (.+?)(\x5b[0-9]+\x5d end | end):
splits a trailing bracketed bus index off a non-empty name, returning
(group(1), group(2)); group(2) is empty when the name does not end in a
bracketed index.  none embeds the failed match on the empty string (the
Python code would then fail with AttributeError on match.group). -/
def netnameSplit (s : String) : Option (String × String) :=
  match s.data with
  | [] => none
  | c :: cs =>
    match (c :: cs).reverse with
    | ']' :: rest =>
      let ds := rest.takeWhile (fun d => d.isDigit)
      match rest.drop ds.length with
      | '[' :: base_rev =>
        if ds = [] ∨ base_rev = [] then some (s, "")
        else some (⟨base_rev.reverse⟩, ⟨'[' :: (ds.reverse ++ [']'])⟩)
      | _ => some (s, "")
    | _ => some (s, "")

/-- The immutable constraint record IoConstraint. -/
structure IoConstraint where
  name : String
  x : Int
  y : Int
  z : Int
  comment : String
deriving DecidableEq, Repr

/-- The state of the IoPlace object: the ordered constraint dictionary,
the input and output net name sets from the eblif file, the optional net
name to block name map, the net map and the inout alias set. -/
structure IoPlace where
  constraints : List (String × IoConstraint)
  inputs : List String
  outputs : List String
  net_to_block : Option (List (String × String))
  net_map : List (String × String)
  inout_nets : List String
deriving DecidableEq, Repr

/-- Python set.add on the list embedding of a set of strings. -/
def setAdd (l : List String) (x : String) : List String :=
  if x ∈ l then l else l ++ [x]

/-- Embedding of read_io_list_from_eblif.  The blif parsing itself is an
external collaborator; the two argument lists are the inputs and outputs
name collections of the parsed file.  Python iterates the two sets in an
unspecified order; the contents of the resulting net_map and inout_nets do
not depend on that order, and the embedding fixes inputs before outputs. -/
def read_io_list_from_eblif (inputs outputs : List String) : IoPlace :=
  let step := fun (acc : List (String × String) × List String) (net : String) =>
    match inoutAlias net with
    | some al => (dictInsert acc.1 net al, setAdd acc.2 al)
    | none => (dictInsert acc.1 net net, acc.2)
  let res := (inputs ++ outputs).foldl step ([], [])
  { constraints := [], inputs := inputs, outputs := outputs,
    net_to_block := none, net_map := res.1, inout_nets := res.2 }

/-- Embedding of IoPlace.is_net: membership among the values of net_map. -/
def is_net (st : IoPlace) (net : String) : Bool :=
  st.net_map.any (fun p => p.2 == net)

/-- Failure modes of constrain_net: the two assert statements, and the
AttributeError that NETNAME_REGEX.match(...).group would raise on the
empty net name. -/
inductive CErr where
  | duplicateConstraint
  | unknownNet
  | regexFail
deriving DecidableEq, Repr

/-- Embedding of IoPlace.constrain_net.  The assert len(loc) == 3 holds
structurally for the coordinate triple.  The duplicate assert tests the
raw argument name against the stored constraint keys; outputs are then
namespaced with the out: string, and a name in the inout alias set is
stored twice, under the input-suffixed key without namespace and under the
output-suffixed key with the out: namespace. -/
def constrain_net (st : IoPlace) (net_name : String) (loc : Int × Int × Int)
    (comment : String) : Except CErr IoPlace :=
  if (dictGet st.constraints net_name).isSome then Except.error CErr.duplicateConstraint
  else if ¬ is_net st net_name then Except.error CErr.unknownNet
  else
    let name2 := if net_name ∈ st.outputs then "out:" ++ net_name else net_name
    if name2 ∈ st.inout_nets then
      match netnameSplit name2 with
      | none => Except.error CErr.regexFail
      | some (g1, g2) =>
        let k1 := g1 ++ "_$inp" ++ g2
        let k2 := "out:" ++ g1 ++ "_$out" ++ g2
        let c1 : IoConstraint := ⟨k1, loc.1, loc.2.1, loc.2.2, comment⟩
        let c2 : IoConstraint := ⟨k2, loc.1, loc.2.1, loc.2.2, comment⟩
        Except.ok { st with constraints := dictInsert (dictInsert st.constraints k1 c1) k2 c2 }
    else
      let c0 : IoConstraint := ⟨name2, loc.1, loc.2.1, loc.2.2, comment⟩
      Except.ok { st with constraints := dictInsert st.constraints name2 c0 }

/-- Resolution of a constraint name in output_io_place: identity when no
net_to_block map was loaded, otherwise dict.get (None when absent). -/
def resolveName (ntb : Option (List (String × String))) (name : String) : Option String :=
  match ntb with
  | none => some name
  | some m => dictGet m name

/-- Outcome of output_io_place: ValueError of max() on an empty constraint
store, fatal exit on a conflicting pair (carrying the rows already printed
and the two conflicting records), or normal return carrying the printed
rows.  A row is the resolved block name together with the constraint record
whose data fills the printed line. -/
inductive PlaceOut where
  | emptyErr
  | conflict (written : List (String × IoConstraint)) (existing current : IoConstraint)
  | ok (written : List (String × IoConstraint))
deriving DecidableEq, Repr

/-- The traversal loop of output_io_place over the stored constraints, in
insertion order, threading the constrained_blocks dictionary and the rows
printed so far.  A block seen before with identical coordinates is skipped;
with differing coordinates the run aborts; an unresolvable name (dict.get
returned None) is skipped; otherwise the row is printed first and the block
is then recorded. -/
def outLoop (ntb : Option (List (String × String))) :
    List (String × IoConstraint) → List (String × IoConstraint) →
    List (String × IoConstraint) → PlaceOut
  | [], _, written => PlaceOut.ok written
  | (_, c) :: rest, blocks, written =>
    match resolveName ntb c.name with
    | some n =>
      match dictGet blocks n with
      | some existing =>
        if existing.x ≠ c.x ∨ existing.y ≠ c.y ∨ existing.z ≠ c.z then
          PlaceOut.conflict written existing c
        else
          outLoop ntb rest blocks written
      | none => outLoop ntb rest (dictInsert blocks n c) (written ++ [(n, c)])
    | none => outLoop ntb rest blocks written

/-- Embedding of IoPlace.output_io_place.  The column width computation
max(len(c.name) for c in constraints.values()) raises ValueError on an
empty store before anything is written; afterwards the header line is
printed and the constraints are traversed in insertion order. -/
def output_io_place (st : IoPlace) : PlaceOut :=
  if st.constraints.isEmpty then PlaceOut.emptyErr
  else outLoop st.net_to_block st.constraints [] []

end VprPlace

namespace Netlist

/-- Concrete design with an input port A on net 0 and an inout port C on
net 2, used to exercise the splitter. -/
def designA : Design :=
  ⟨[("top", { attributes := [("top", AttrVal.int 1)],
              ports := [("A", ⟨"input", [Bit.net 0]⟩), ("C", ⟨"inout", [Bit.net 2]⟩)],
              cells := [],
              netnames := [("A", ⟨0, [Bit.net 0], []⟩), ("C", ⟨0, [Bit.net 2], []⟩)] })]⟩

/-- The top module of designA. -/
def moduleA : Module :=
  { attributes := [("top", AttrVal.int 1)],
    ports := [("A", ⟨"input", [Bit.net 0]⟩), ("C", ⟨"inout", [Bit.net 2]⟩)],
    cells := [],
    netnames := [("A", ⟨0, [Bit.net 0], []⟩), ("C", ⟨0, [Bit.net 2], []⟩)] }

/-- The splitter output on designA: the inout port C on net 2 is replaced
by an input on the fresh net 1 and an output on the fresh net 2 — the
second allocation reuses the id of the removed port itself. -/
def resultA : SplitResult :=
  ⟨{ attributes := [("top", AttrVal.int 1)],
     ports := [("A", ⟨"input", [Bit.net 0]⟩), ("C_$inp", ⟨"input", [Bit.net 1]⟩),
               ("C_$out", ⟨"output", [Bit.net 2]⟩)],
     cells := [],
     netnames := [("A", ⟨0, [Bit.net 0], []⟩), ("C_$inp", ⟨0, [Bit.net 1], []⟩),
                  ("C_$out", ⟨0, [Bit.net 2], []⟩)] },
   [("C", "C_$inp"), ("C", "C_$out")],
   [(2, ⟨some 1, some 2⟩)],
   [1, 2]⟩

/-- Concrete design whose single port is an inout on net 5: the port bits
of the module consist solely of the net ids of the inout port. -/
def designB : Design :=
  ⟨[("top", { attributes := [("top", AttrVal.int 1)],
              ports := [("C", ⟨"inout", [Bit.net 5]⟩)],
              cells := [],
              netnames := [("C", ⟨0, [Bit.net 5], []⟩)] })]⟩

/-- Module with no inout port whose netname K consists of a constant
literal only. -/
def moduleC : Module :=
  { attributes := [("top", AttrVal.int 1)],
    ports := [("A", ⟨"input", [Bit.net 0]⟩)],
    cells := [],
    netnames := [("A", ⟨0, [Bit.net 0], []⟩), ("K", ⟨0, [Bit.const "0"], []⟩)] }

/-- Design holding moduleC as top module. -/
def designC : Design := ⟨[("top", moduleC)]⟩

/-- The moduleC document after a splitter run: the all-constant netname K
has been removed although the module has no inout port. -/
def moduleC' : Module := { moduleC with netnames := [("A", ⟨0, [Bit.net 0], []⟩)] }

/-- Design with a single module that does not carry the top marker. -/
def designD : Design :=
  ⟨[("m", { attributes := [("src", AttrVal.str "a.v")], ports := [], cells := [],
            netnames := [] })]⟩

end Netlist

namespace VprPlace

/-- IoPlace state read from an eblif with input A and output B. -/
def stRegular : IoPlace := read_io_list_from_eblif ["A"] ["B"]

/-- IoPlace state read from an eblif whose ports C_$inp and C_$out are the
two halves of a split inout C. -/
def stAlias : IoPlace := read_io_list_from_eblif ["C_$inp"] ["C_$out"]

/-- IoPlace state read from an eblif with input C_$inp and output C: the
name C is classified as an inout alias and is also an output. -/
def stAliasOut : IoPlace := read_io_list_from_eblif ["C_$inp"] ["C"]

/-- Constraint on net n1 at (1,2,0). -/
def cN1 : IoConstraint := ⟨"n1", 1, 2, 0, "pcf1"⟩

/-- Constraint on net n2 at (1,2,1), conflicting with cN1 on a shared
block. -/
def cN2 : IoConstraint := ⟨"n2", 1, 2, 1, "pcf2"⟩

/-- Constraint store in which n1 and n2 resolve to the same block BLK with
differing coordinates. -/
def stConflict : IoPlace :=
  { constraints := [("n1", cN1), ("n2", cN2)], inputs := [], outputs := [],
    net_to_block := some [("n1", "BLK"), ("n2", "BLK")], net_map := [],
    inout_nets := [] }

/-- IoPlace state with an empty constraint store. -/
def stEmpty : IoPlace := read_io_list_from_eblif [] []

/-- Constraint on net n2 at the same coordinates as cN1. -/
def cN3 : IoConstraint := ⟨"n2", 1, 2, 0, "pcf3"⟩

/-- Constraint store in which n1 and n2 resolve to the same block BLK with
identical coordinates. -/
def stDup : IoPlace :=
  { constraints := [("n1", cN1), ("n2", cN3)], inputs := [], outputs := [],
    net_to_block := some [("n1", "BLK"), ("n2", "BLK")], net_map := [],
    inout_nets := [] }

/-- stRegular after constraining the output net B once: the record is
stored under the namespaced key out:B, not under B. -/
def stRegB : IoPlace :=
  { stRegular with constraints := [("out:B", ⟨"out:B", 1, 2, 0, "pcf1"⟩)] }

/-- stRegular after constraining the output net B twice: the second call
has overwritten the record stored under out:B. -/
def stRegB2 : IoPlace :=
  { stRegular with constraints := [("out:B", ⟨"out:B", 3, 4, 5, "pcf2"⟩)] }

/-- stRegular after constraining the input net A once: the record is
stored under the raw key A. -/
def stRegA : IoPlace :=
  { stRegular with constraints := [("A", ⟨"A", 1, 2, 0, "c"⟩)] }

/-- stAliasOut after constraining C: a single record under out:C. -/
def stAliasOutC : IoPlace :=
  { stAliasOut with constraints := [("out:C", ⟨"out:C", 1, 2, 0, "pcf"⟩)] }

end VprPlace

/-
Helper lemmas about the ordered dictionary operations.
-/

theorem dictAny_eq_isSome {κ β : Type} [DecidableEq κ] (l : List (κ × β)) (k : κ) :
    l.any (fun p => p.1 == k) = (dictGet l k).isSome := by
  induction l with
  | nil => simp [dictGet]
  | cons p rest ih =>
    by_cases h : p.1 = k <;> simp [dictGet, h, ih]

theorem dictGet_mem {κ β : Type} [DecidableEq κ] {l : List (κ × β)} {k : κ} {v : β}
    (h : dictGet l k = some v) : (k, v) ∈ l := by
  induction l with
  | nil => simp [dictGet] at h
  | cons p rest ih =>
    rw [dictGet] at h
    by_cases hk : p.1 = k
    · rw [if_pos hk] at h
      cases p
      cases hk
      cases h
      exact List.mem_cons_self _ _
    · rw [if_neg hk] at h
      exact List.mem_cons_of_mem _ (ih h)

theorem dictInsert_of_get_none {κ β : Type} [DecidableEq κ] {l : List (κ × β)} {k : κ}
    (v : β) (h : dictGet l k = none) : dictInsert l k v = l ++ [(k, v)] := by
  unfold dictInsert
  rw [dictAny_eq_isSome, h]
  simp

theorem dictGet_append_single_self {κ β : Type} [DecidableEq κ] {l : List (κ × β)} {k : κ}
    (v : β) (h : dictGet l k = none) : dictGet (l ++ [(k, v)]) k = some v := by
  induction l with
  | nil => simp [dictGet]
  | cons p rest ih =>
    by_cases hk : p.1 = k
    · simp [dictGet, hk] at h
    · simp only [dictGet, List.cons_append, if_neg hk] at h ⊢
      exact ih h

theorem dictGet_map_replace {κ β : Type} [DecidableEq κ] {l : List (κ × β)} {k : κ}
    (v : β) (h : (dictGet l k).isSome) :
    dictGet (l.map (fun p => if p.1 = k then (k, v) else p)) k = some v := by
  induction l with
  | nil => simp [dictGet] at h
  | cons p rest ih =>
    by_cases hk : p.1 = k
    · simp [dictGet, hk]
    · have hp : (if p.1 = k then (k, v) else p) = p := if_neg hk
      simp only [dictGet, if_neg hk] at h
      simp only [List.map_cons, hp, dictGet, if_neg hk]
      exact ih h

theorem dictGet_dictInsert_self {κ β : Type} [DecidableEq κ] (l : List (κ × β)) (k : κ)
    (v : β) : dictGet (dictInsert l k v) k = some v := by
  unfold dictInsert
  rw [dictAny_eq_isSome]
  cases hg : dictGet l k with
  | none =>
    simp only [Option.isSome_none, Bool.false_eq_true, if_false]
    exact dictGet_append_single_self v hg
  | some w =>
    simp only [Option.isSome_some, if_true]
    exact dictGet_map_replace v (by simp [hg])

/-
Helper lemmas about pysorted and get_free_net.
-/

namespace Netlist

theorem pysorted_sorted (s : Finset ℕ) : (pysorted s).Sorted (· ≤ ·) := by
  rcases s with ⟨m, nd⟩
  revert nd
  refine Quot.inductionOn m ?_
  intro l _
  exact List.sorted_insertionSort _ l

theorem pysorted_nodup (s : Finset ℕ) : (pysorted s).Nodup := by
  rcases s with ⟨m, nd⟩
  revert nd
  refine Quot.inductionOn m ?_
  intro l nd
  exact ((List.perm_insertionSort (· ≤ ·) l).nodup_iff).2 nd

theorem pysorted_sorted_lt (s : Finset ℕ) : (pysorted s).Sorted (· < ·) :=
  (pysorted_sorted s).lt_of_le (pysorted_nodup s)

theorem mem_pysorted {s : Finset ℕ} {a : ℕ} : a ∈ pysorted s ↔ a ∈ s := by
  rcases s with ⟨m, nd⟩
  revert nd
  refine Quot.inductionOn m ?_
  intro l _
  simp [pysorted]

theorem pysorted_eq_nil {s : Finset ℕ} (h : pysorted s = []) : s = ∅ := by
  ext a
  simp only [Finset.not_mem_empty, iff_false]
  intro ha
  rw [← mem_pysorted (s := s)] at ha
  rw [h] at ha
  exact (List.not_mem_nil a) ha

theorem findGap_spec : ∀ (rest : List ℕ) (n0 : ℕ), (n0 :: rest).Sorted (· < ·) →
    ∀ g, findGap (n0 :: rest) = some g →
    n0 < g ∧ g ∉ (n0 :: rest) ∧ ∀ m, n0 < m → m < g → m ∈ (n0 :: rest) := by
  intro rest
  induction rest with
  | nil =>
    intro n0 _ g hg
    simp [findGap] at hg
  | cons n1 rest' ih =>
    intro n0 hsort g hg
    obtain ⟨h01, hsort1⟩ := List.sorted_cons.1 hsort
    have hn01 : n0 < n1 := h01 n1 (List.mem_cons_self _ _)
    rw [findGap] at hg
    by_cases hne : n1 ≠ n0 + 1
    · rw [if_pos hne] at hg
      cases hg
      refine ⟨by omega, ?_, by omega⟩
      intro hmem
      rcases List.mem_cons.1 hmem with h | h
      · omega
      · rcases List.mem_cons.1 h with h' | h'
        · omega
        · have := (List.sorted_cons.1 hsort1).1 _ h'
          omega
    · rw [if_neg hne] at hg
      push_neg at hne
      obtain ⟨hg1, hg2, hg3⟩ := ih n1 hsort1 g hg
      refine ⟨by omega, ?_, ?_⟩
      · intro hmem
        rcases List.mem_cons.1 hmem with h | h
        · omega
        · exact hg2 h
      · intro m hm1 hm2
        rcases Nat.lt_or_ge m n1 with h | h
        · omega
        · rcases Nat.eq_or_lt_of_le h with h' | h'
          · exact List.mem_cons_of_mem _ (h' ▸ List.mem_cons_self _ _)
          · exact List.mem_cons_of_mem _ (hg3 m h' hm2)

theorem findGap_none_contig : ∀ (rest : List ℕ) (n0 : ℕ), findGap (n0 :: rest) = none →
    ∀ lastv, (n0 :: rest).getLast? = some lastv →
    ∀ m, n0 < m → m ≤ lastv → m ∈ (n0 :: rest) := by
  intro rest
  induction rest with
  | nil =>
    intro n0 _ lastv hlv m hm1 hm2
    simp only [List.getLast?_singleton, Option.some.injEq] at hlv
    omega
  | cons n1 rest' ih =>
    intro n0 hg lastv hlv m hm1 hm2
    rw [findGap] at hg
    by_cases hne : n1 ≠ n0 + 1
    · rw [if_pos hne] at hg
      cases hg
    · rw [if_neg hne] at hg
      push_neg at hne
      rw [List.getLast?_cons_cons] at hlv
      rcases Nat.lt_or_ge m n1 with h | h
      · omega
      · rcases Nat.eq_or_lt_of_le h with h' | h'
        · exact List.mem_cons_of_mem _ (h' ▸ List.mem_cons_self _ _)
        · exact List.mem_cons_of_mem _ (ih n1 hg lastv hlv m h' hm2)

theorem sorted_le_getLast : ∀ (l : List ℕ), l.Sorted (· < ·) → ∀ x ∈ l,
    ∀ lastv, l.getLast? = some lastv → x ≤ lastv := by
  intro l
  induction l with
  | nil =>
    intro _ x hx
    cases hx
  | cons a l' ih =>
    intro hsort x hx lastv hlv
    cases l' with
    | nil =>
      simp only [List.getLast?_singleton, Option.some.injEq] at hlv
      rcases List.mem_cons.1 hx with h | h
      · omega
      · cases h
    | cons b l'' =>
      rw [List.getLast?_cons_cons] at hlv
      obtain ⟨ha, hsort1⟩ := List.sorted_cons.1 hsort
      rcases List.mem_cons.1 hx with h | h
      · have hb : b ≤ lastv := ih hsort1 b (List.mem_cons_self _ _) lastv hlv
        have := ha b (List.mem_cons_self _ _)
        omega
      · exact ih hsort1 x h lastv hlv

theorem get_free_net_empty : get_free_net ∅ = none := rfl

theorem get_free_net_spec (s : Finset ℕ) (hne : s.Nonempty) :
    ∃ g, get_free_net s = some g ∧ g ∉ s ∧ s.min' hne < g ∧
      ∀ m, s.min' hne < m → m < g → m ∈ s := by
  cases hl : pysorted s with
  | nil => exact absurd (pysorted_eq_nil hl) (Finset.nonempty_iff_ne_empty.1 hne)
  | cons n0 rest =>
    have hsort : (n0 :: rest).Sorted (· < ·) := hl ▸ pysorted_sorted_lt s
    have hmem : ∀ a, a ∈ (n0 :: rest) ↔ a ∈ s := fun a => by
      rw [← hl]; exact mem_pysorted
    have hmin : s.min' hne = n0 := by
      apply le_antisymm
      · exact Finset.min'_le s n0 ((hmem n0).1 (List.mem_cons_self _ _))
      · have hm : s.min' hne ∈ (n0 :: rest) := (hmem _).2 (Finset.min'_mem s hne)
        rcases List.mem_cons.1 hm with h | h
        · omega
        · exact le_of_lt ((List.sorted_cons.1 hsort).1 _ h)
    cases hfg : findGap (n0 :: rest) with
    | some g =>
      obtain ⟨h1, h2, h3⟩ := findGap_spec rest n0 hsort g hfg
      refine ⟨g, ?_, ?_, ?_, ?_⟩
      · simp [get_free_net, hl, hfg]
      · exact fun hg => h2 ((hmem g).2 hg)
      · omega
      · intro m hm1 hm2
        exact (hmem m).1 (h3 m (by omega) hm2)
    | none =>
      have hlv : (n0 :: rest).getLast? = some ((n0 :: rest).getLast (by simp)) :=
        List.getLast?_eq_getLast _ _
      set lastv := (n0 :: rest).getLast (by simp) with hlast
      refine ⟨lastv + 1, ?_, ?_, ?_, ?_⟩
      · simp [get_free_net, hl, hfg, hlv]
      · intro hg
        have := sorted_le_getLast _ hsort _ ((hmem _).2 hg) lastv hlv
        omega
      · have := sorted_le_getLast _ hsort n0 (List.mem_cons_self _ _) lastv hlv
        omega
      · intro m hm1 hm2
        exact (hmem m).1 (findGap_none_contig rest n0 hfg lastv hlv m (by omega) (by omega))

theorem get_free_net_not_mem {s : Finset ℕ} {g : ℕ} (h : get_free_net s = some g) :
    g ∉ s := by
  rcases s.eq_empty_or_nonempty with he | hne
  · rw [he, get_free_net_empty] at h
    cases h
  · obtain ⟨g', hg', hnm, _, _⟩ := get_free_net_spec s hne
    rw [hg'] at h
    cases h
    exact hnm

theorem splitBits_spec (dir : String) : ∀ (bits : List Bit) (st : SplitState)
    (r : List Bit × SplitState), splitBits dir st bits = some r →
    st.nets ⊆ r.2.nets ∧ ∃ fresh, r.2.trace = st.trace ++ fresh ∧ fresh.Nodup ∧
      (∀ a ∈ fresh, a ∉ st.nets) ∧ (∀ a ∈ fresh, a ∈ r.2.nets) := by
  intro bits
  induction bits with
  | nil =>
    intro st r h
    rw [splitBits] at h
    cases h
    exact ⟨Finset.Subset.refl _, [], by simp, List.nodup_nil, by simp, by simp⟩
  | cons b rest ih =>
    intro st r h
    cases b with
    | const s =>
      rw [splitBits] at h
      cases hrec : splitBits dir st rest with
      | none => rw [hrec] at h; cases h
      | some pr =>
        rw [hrec] at h
        cases h
        exact ih st pr hrec
    | net n =>
      rw [splitBits] at h
      split at h
      · cases h
      · rename_i mapped hfree
        dsimp only at h
        split at h
        · rename_i bits' st'' hrec
          cases h
          obtain ⟨hsub, fresh', htr, hnd, hnotin, hin⟩ := ih _ _ hrec
          refine ⟨(Finset.subset_insert _ _).trans hsub, mapped :: fresh', ?_, ?_, ?_, ?_⟩
          · simpa [List.append_assoc] using htr
          · refine List.nodup_cons.2 ⟨?_, hnd⟩
            intro hmem
            exact (hnotin mapped hmem) (Finset.mem_insert_self _ _)
          · intro a ha
            rcases List.mem_cons.1 ha with h' | h'
            · exact h' ▸ get_free_net_not_mem hfree
            · exact fun hmem => (hnotin a h') (Finset.mem_insert_of_mem hmem)
          · intro a ha
            rcases List.mem_cons.1 ha with h' | h'
            · subst h'
              exact hsub (Finset.mem_insert_self _ _)
            · exact hin a h'
        · cases h

theorem mem_foldl_union (l : List (String × Port)) : ∀ (acc : Finset ℕ) (a : ℕ),
    (a ∈ l.foldl (fun acc p => acc ∪ get_port_nets p.2) acc) ↔
      a ∈ acc ∨ ∃ p ∈ l, a ∈ get_port_nets p.2 := by
  induction l with
  | nil => intro acc a; simp
  | cons q rest ih =>
    intro acc a
    rw [List.foldl_cons, ih]
    simp only [Finset.mem_union, List.mem_cons]
    constructor
    · rintro (⟨h | h⟩ | ⟨p, hp, h⟩)
      · exact Or.inl h
      · exact Or.inr ⟨q, Or.inl rfl, h⟩
      · exact Or.inr ⟨p, Or.inr hp, h⟩
    · rintro (h | ⟨p, (rfl | hp), h⟩)
      · exact Or.inl (Or.inl h)
      · exact Or.inl (Or.inr h)
      · exact Or.inr ⟨p, hp, h⟩

theorem mem_portsNets {l : List (String × Port)} {a : ℕ} :
    a ∈ portsNets l ↔ ∃ p ∈ l, a ∈ get_port_nets p.2 := by
  unfold portsNets
  rw [mem_foldl_union]
  simp

theorem processInouts_spec (R : Finset ℕ) :
    ∀ (inouts : List (String × Port)) (ls ls' : LoopState),
    processInouts inouts ls = some ls' →
    inouts.Pairwise (fun p q => Disjoint (get_port_nets p.2) (get_port_nets q.2)) →
    R ⊆ ls.split.nets →
    (∀ p ∈ inouts, get_port_nets p.2 ⊆ ls.split.nets) →
    (∀ p ∈ inouts, Disjoint (get_port_nets p.2) R) →
    ls.split.trace.Nodup →
    (∀ a ∈ ls.split.trace, a ∈ ls.split.nets) →
    (∀ a ∈ ls.split.trace, a ∉ R) →
    (∀ a ∈ ls.split.trace, ∀ p ∈ inouts, a ∉ get_port_nets p.2) →
    ls'.split.trace.Nodup ∧ ∀ a ∈ ls'.split.trace, a ∉ R := by
  intro inouts
  induction inouts with
  | nil =>
    intro ls ls' h _ _ _ _ hnd _ hNotR _
    rw [processInouts] at h
    cases h
    exact ⟨hnd, hNotR⟩
  | cons hd rest ih =>
    obtain ⟨name, port⟩ := hd
    intro ls ls' h hpw hR hPorts hPDisj hnd hInNets hNotR hTrP
    rw [processInouts] at h
    dsimp only at h
    obtain ⟨hpwHead, hpwRest⟩ := List.pairwise_cons.1 hpw
    split at h
    · cases h
    · rename_i bits_i st1 h1
      split at h
      · cases h
      · rename_i bits_o st2 h2
        obtain ⟨hsub1, fresh1, htr1, hnd1, hout1, hin1⟩ :=
          splitBits_spec "input" port.bits _ _ h1
        obtain ⟨hsub2, fresh2, htr2, hnd2, hout2, hin2⟩ :=
          splitBits_spec "output" port.bits _ _ h2
        dsimp only at hsub1 htr1 hout1
        have hHeadDisj : Disjoint (get_port_nets port) R :=
          hPDisj (name, port) (List.mem_cons_self _ _)
        have hRn1 : R ⊆ ls.split.nets \ get_port_nets port :=
          Finset.subset_sdiff.2 ⟨hR, hHeadDisj.symm⟩
        have hTr1 : ∀ a ∈ ls.split.trace, a ∈ ls.split.nets \ get_port_nets port :=
          fun a ha => Finset.mem_sdiff.2
            ⟨hInNets a ha, hTrP a ha (name, port) (List.mem_cons_self _ _)⟩
        have hRestSub : ∀ q ∈ rest, get_port_nets q.2 ⊆ ls.split.nets \ get_port_nets port :=
          fun q hq => Finset.subset_sdiff.2
            ⟨hPorts q (List.mem_cons_of_mem _ hq), (hpwHead q hq).symm⟩
        have hmemTr2 : ∀ a ∈ st2.trace,
            a ∈ ls.split.trace ∨ a ∈ fresh1 ∨ a ∈ fresh2 := by
          intro a ha
          rw [htr2, htr1] at ha
          rcases List.mem_append.1 ha with h' | h'
          · rcases List.mem_append.1 h' with h'' | h''
            · exact Or.inl h''
            · exact Or.inr (Or.inl h'')
          · exact Or.inr (Or.inr h')
        have hTr2Nets : ∀ a ∈ st2.trace, a ∈ st2.nets := by
          intro a ha
          rcases hmemTr2 a ha with h' | h' | h'
          · exact hsub2 (hsub1 (hTr1 a h'))
          · exact hsub2 (hin1 a h')
          · exact hin2 a h'
        refine ih _ ls' h hpwRest ?_ ?_ ?_ ?_ ?_ ?_ ?_
        · exact hRn1.trans (hsub1.trans hsub2)
        · exact fun q hq => (hRestSub q hq).trans (hsub1.trans hsub2)
        · exact fun q hq => hPDisj q (List.mem_cons_of_mem _ hq)
        · rw [htr2, htr1]
          rw [List.nodup_append, List.nodup_append]
          refine ⟨⟨hnd, hnd1, ?_⟩, hnd2, ?_⟩
          · intro a ha hafresh
            exact (hout1 a hafresh) (hTr1 a ha)
          · intro a ha hafresh
            rcases List.mem_append.1 ha with h' | h'
            · exact (hout2 a hafresh) (hsub1 (hTr1 a h'))
            · exact (hout2 a hafresh) (hin1 a h')
        · exact hTr2Nets
        · intro a ha
          rcases hmemTr2 a ha with h' | h' | h'
          · exact hNotR a h'
          · exact fun haR => (hout1 a h') (hRn1 haR)
          · exact fun haR => (hout2 a h') (hsub1 (hRn1 haR))
        · intro a ha q hq
          rcases hmemTr2 a ha with h' | h' | h'
          · exact hTrP a h' q (List.mem_cons_of_mem _ hq)
          · exact fun hmem => (hout1 a h') (hRestSub q hq hmem)
          · exact fun hmem => (hout2 a h') (hsub1 (hRestSub q hq hmem))

/-- C1, counterexample: on designA (input A on net 0, inout C on net 2)
the splitter allocates the ids 1 and 2; the allocated id 2 equals the
pre-existing net id 2 of the removed inout port C itself, so the ids
allocated during a run are not disjoint from every net id pre-existing in
the module. -/
theorem split_reuses_removed_inout_id :
    find_and_split_inout_ports designA (some "top") = Except.ok resultA ∧
    2 ∈ resultA.trace ∧ 2 ∈ portsNets moduleA.ports := by
  refine ⟨by decide, by decide, by decide⟩

/-- C1 (amended): in a run of find_and_split_inout_ports on a module whose
ports have pairwise disjoint net id sets, all ids handed out by the
free-id allocator are pairwise distinct and disjoint from the net ids of
the non-inout ports (the occupied set after the inout ids are subtracted);
they may still coincide with the ids of the removed inout ports themselves
or with ids appearing only in cell connections or netnames. -/
theorem split_allocations_fresh (design : Design) (name : String) (module : Module)
    (h1 : dictGet design.modules name = some module)
    (h2 : module.ports.Pairwise (fun p q => Disjoint (get_port_nets p.2) (get_port_nets q.2)))
    (r : SplitResult)
    (h3 : find_and_split_inout_ports design (some name) = Except.ok r) :
    r.trace.Nodup ∧ ∀ a ∈ r.trace, a ∉ nonInoutIds module := by
  rw [find_and_split_inout_ports] at h3
  rw [h1] at h3
  dsimp only at h3
  split at h3
  · cases h3
  · rename_i ls hp
    cases h3
    have hpw : (module.ports.filter (fun p => p.2.direction == "inout")).Pairwise
        (fun p q => Disjoint (get_port_nets p.2) (get_port_nets q.2)) :=
      List.Pairwise.filter _ h2
    refine processInouts_spec (nonInoutIds module) _ _ ls hp hpw ?_ ?_ ?_ ?_ ?_ ?_ ?_
    · intro a ha
      rw [nonInoutIds, mem_portsNets] at ha
      obtain ⟨p, hp', hap⟩ := ha
      exact mem_portsNets.2 ⟨p, List.mem_of_mem_filter hp', hap⟩
    · intro p hp' a hap
      exact mem_portsNets.2 ⟨p, List.mem_of_mem_filter hp', hap⟩
    · intro p hp'
      rw [Finset.disjoint_left]
      intro a hap haR
      rw [nonInoutIds, mem_portsNets] at haR
      obtain ⟨q, hq', haq⟩ := haR
      have hpq : p ≠ q := by
        intro heq
        have h₁ := List.of_mem_filter hp'
        have h₂ := List.of_mem_filter hq'
        rw [heq] at h₁
        simp at h₁ h₂
        exact h₂ h₁
      have hdisj := h2.forall (fun p q h => h.symm)
        (List.mem_of_mem_filter hp') (List.mem_of_mem_filter hq') hpq
      exact (Finset.disjoint_left.1 hdisj) hap haq
    · exact List.nodup_nil
    · intro a ha
      cases ha
    · intro a ha
      cases ha
    · intro a ha
      cases ha

/-- Witness for split_allocations_fresh: on designA the allocation log is
the duplicate-free list 1, 2, disjoint from the net id 0 of the remaining
input port A. -/
theorem split_allocations_fresh_witness :
    resultA.trace.Nodup ∧ ∀ a ∈ resultA.trace, a ∉ nonInoutIds moduleA :=
  split_allocations_fresh designA "top" moduleA (by decide) (by decide) resultA (by decide)

/-- C3, counterexample: on the occupied set containing only 5 the
allocator returns 6, although 0 is an integer not contained in the set and
smaller than 6 — so get_free_net does not return the smallest integer not
contained in the set. -/
theorem get_free_net_not_least :
    get_free_net {5} = some 6 ∧ (0 : ℕ) ∉ ({5} : Finset ℕ) ∧ (6 : ℕ) ≠ 0 :=
  ⟨rfl, by decide, by decide⟩

/-- C3 (amended): for every non-empty occupied set, get_free_net returns
the smallest integer that is strictly greater than the minimum of the set
and not contained in it (the first gap above the minimum, or the maximum
plus one when there is no gap). -/
theorem get_free_net_least_above_min (s : Finset ℕ) (hne : s.Nonempty) :
    ∃ g, get_free_net s = some g ∧ g ∉ s ∧ s.min' hne < g ∧
      ∀ m, s.min' hne < m → m < g → m ∈ s :=
  get_free_net_spec s hne

/-- Witness for get_free_net_least_above_min at the set 0, 1, 3 of the
specification example: the allocator fills the gap with 2. -/
theorem get_free_net_least_above_min_witness :
    ∃ g, get_free_net {0, 1, 3} = some g ∧ g ∉ ({0, 1, 3} : Finset ℕ) ∧
      ({0, 1, 3} : Finset ℕ).min' (by decide) < g ∧
      ∀ m, ({0, 1, 3} : Finset ℕ).min' (by decide) < m → m < g → m ∈ ({0, 1, 3} : Finset ℕ) :=
  get_free_net_least_above_min {0, 1, 3} (by decide)

/-- C9: get_free_net fails on the empty occupied set (IndexError on
sorted_nets[-1]), and the case is reachable from the splitter: on designB,
whose port bits consist solely of the net ids of its inout port C, the
subtraction empties the occupied set and the run aborts. -/
theorem get_free_net_empty_fails_reachable :
    get_free_net ∅ = none ∧
    find_and_split_inout_ports designB (some "top") = Except.error SplitErr.indexError :=
  ⟨rfl, by decide⟩

/-- C7: when no module of the design carries the top marker attribute,
find_top_module returns None and the desugaring pipeline fails — the
module lookup design modules None raises the error the specification
calls SchemaError. -/
theorem no_top_module_fails (design : Design)
    (h : ∀ p ∈ design.modules, ¬ is_top p.2) :
    run_split design = Except.error SplitErr.keyError := by
  have hft : find_top_module design = none := by
    rw [find_top_module, List.find?_eq_none.2 h]
    rfl
  rw [run_split, hft]
  rfl

/-- Witness for no_top_module_fails on designD, whose single module is not
marked top. -/
theorem no_top_module_fails_witness :
    run_split designD = Except.error SplitErr.keyError :=
  no_top_module_fails designD (by decide)

/-- C6, counterexample: designC has zero inout ports, yet the splitter
does not leave the module unchanged — the all-constant netname K is
deleted by the netname cleanup even though the net map is empty. -/
theorem split_no_inout_drops_const_netname :
    find_and_split_inout_ports designC (some "top") = Except.ok ⟨moduleC', [], [], []⟩ ∧
    moduleC' ≠ moduleC :=
  ⟨by decide, by decide⟩

/-- C6 (amended): on a module with zero inout ports the splitter returns
an empty net map and an empty port map and leaves the ports unchanged;
the netnames are unchanged except that every netname without a single
integer net id among its bits (an all-constant netname) is removed. -/
theorem split_no_inout_ports_behavior (design : Design) (name : String) (module : Module)
    (h1 : dictGet design.modules name = some module)
    (h2 : ∀ p ∈ module.ports, ¬ p.2.direction = "inout") :
    find_and_split_inout_ports design (some name) =
      Except.ok ⟨{ module with
        netnames := module.netnames.filter (fun p => p.2.bits.any isIntBit) }, [], [], []⟩ := by
  rw [find_and_split_inout_ports, h1]
  dsimp only
  have hfi : module.ports.filter (fun p => p.2.direction == "inout") = [] := by
    rw [List.filter_eq_nil_iff]
    intro p hp
    simpa using h2 p hp
  rw [hfi, processInouts]
  dsimp only
  rw [cleanupNetnames]
  simp only [List.any_nil, List.foldl_nil, Bool.false_eq_true, not_false_eq_true,
    decide_True, List.filter_true]
  have hfun : (fun b => if netMapHasKey ([] : List (ℕ × NetEntry)) b = true
      then Bit.const "\"x\"" else b) = fun b => b := by
    funext b
    cases b <;> simp [netMapHasKey]
  have hmap : ∀ (p : String × Netname),
      (p.1, Netname.mk p.2.hide_name
        (List.map (fun b => if netMapHasKey [] b = true then Bit.const "\"x\"" else b) p.2.bits)
        p.2.attributes) = p := by
    intro p
    rw [hfun]
    simp
  simp only [hmap, List.map_id]
  simp

/-- Witness for split_no_inout_ports_behavior on designC: the run succeeds
with empty net and port maps, unchanged ports and the all-constant
netnames filtered out. -/
theorem split_no_inout_ports_behavior_witness :
    find_and_split_inout_ports designC (some "top") =
      Except.ok ⟨{ moduleC with
        netnames := moduleC.netnames.filter (fun p => p.2.bits.any isIntBit) }, [], [], []⟩ :=
  split_no_inout_ports_behavior designC "top" moduleC (by decide) (by decide)

end Netlist

namespace VprPlace

/-- C10: output_io_place fails — the column width computation max() raises
ValueError on an empty sequence — whenever the constraint store is empty,
so even a header-only constraint file requires at least one constraint
registered through constrain_net. -/
theorem output_empty_store_fails (st : IoPlace) (h : st.constraints = []) :
    output_io_place st = PlaceOut.emptyErr := by
  rw [output_io_place, h]
  rfl

/-- Witness for output_empty_store_fails on the state read from an empty
eblif. -/
theorem output_empty_store_fails_witness :
    output_io_place stEmpty = PlaceOut.emptyErr :=
  output_empty_store_fails stEmpty rfl

/-- C2: for a store holding two constraints that resolve to the same block
name, differing coordinates abort the run with the fatal conflict error
reporting both records, while identical coordinates let the run finish
normally with only the first row emitted and the duplicate silently
dropped. -/
theorem output_conflict_detection (k1 k2 n : String) (c1 c2 : IoConstraint)
    (st : IoPlace) (hst : st.constraints = [(k1, c1), (k2, c2)])
    (hr1 : resolveName st.net_to_block c1.name = some n)
    (hr2 : resolveName st.net_to_block c2.name = some n) :
    ((c1.x ≠ c2.x ∨ c1.y ≠ c2.y ∨ c1.z ≠ c2.z) →
      output_io_place st = PlaceOut.conflict [(n, c1)] c1 c2) ∧
    (c1.x = c2.x → c1.y = c2.y → c1.z = c2.z →
      output_io_place st = PlaceOut.ok [(n, c1)]) := by
  have hstep : output_io_place st = outLoop st.net_to_block [(k1, c1), (k2, c2)] [] [] := by
    rw [output_io_place, hst]
    rfl
  have hget0 : dictGet ([] : List (String × IoConstraint)) n = none := rfl
  have hins : dictInsert ([] : List (String × IoConstraint)) n c1 = [(n, c1)] := rfl
  have hget1 : dictGet [(n, c1)] n = some c1 := by simp [dictGet]
  have hrun : ∀ (pout : PlaceOut), output_io_place st = pout ↔
      outLoop st.net_to_block [(k2, c2)] [(n, c1)] [(n, c1)] = pout := by
    intro pout
    rw [hstep, outLoop, hr1]
    dsimp only
    rw [hget0]
    dsimp only
    rw [hins]
    simp only [List.nil_append]
  constructor
  · intro hne
    rw [hrun]
    rw [outLoop, hr2]
    dsimp only
    rw [hget1]
    dsimp only
    rw [if_pos hne]
  · intro hx hy hz
    rw [hrun]
    rw [outLoop, hr2]
    dsimp only
    rw [hget1]
    dsimp only
    rw [if_neg (by simp [hx, hy, hz])]
    rfl

/-- Witness for output_conflict_detection: on stConflict the run aborts
with the conflict carrying both records after writing the first row; on
stDup (same block, identical coordinates) the run succeeds and emits only
the first row. -/
theorem output_conflict_detection_witness :
    output_io_place stConflict = PlaceOut.conflict [("BLK", cN1)] cN1 cN2 ∧
    output_io_place stDup = PlaceOut.ok [("BLK", cN1)] :=
  ⟨(output_conflict_detection "n1" "n2" "BLK" cN1 cN2 stConflict rfl (by decide)
      (by decide)).1 (by decide),
   (output_conflict_detection "n1" "n2" "BLK" cN1 cN3 stDup rfl (by decide)
      (by decide)).2 rfl rfl rfl⟩

/-- C8, counterexample: on the conflicting store stConflict the row of the
first constraint has already been written to the output when the conflict
on the second constraint is detected — the list of rows written before the
abort is not empty. -/
theorem output_conflict_partial_write :
    output_io_place stConflict = PlaceOut.conflict [("BLK", cN1)] cN1 cN2 ∧
    ([("BLK", cN1)] : List (String × IoConstraint)) ≠ [] :=
  ⟨by decide, by decide⟩

/-- Invariant of the output traversal: every entry of the
constrained_blocks dictionary has already been written as a row.  At a
conflict abort, the existing record of the conflicting pair therefore
appears among the rows written before the abort. -/
theorem outLoop_conflict_inv (ntb : Option (List (String × String))) :
    ∀ (L blocks written : List (String × IoConstraint)),
    (∀ p ∈ blocks, p ∈ written) →
    ∀ w e c, outLoop ntb L blocks written = PlaceOut.conflict w e c →
    ∃ n, resolveName ntb c.name = some n ∧ (n, e) ∈ w := by
  intro L
  induction L with
  | nil =>
    intro blocks written _ w e c h
    rw [outLoop] at h
    cases h
  | cons hd rest ih =>
    obtain ⟨k, cc⟩ := hd
    intro blocks written hinv w e c h
    rw [outLoop] at h
    cases hr : resolveName ntb cc.name with
    | none =>
      rw [hr] at h
      exact ih blocks written hinv w e c h
    | some n =>
      rw [hr] at h
      dsimp only at h
      cases hb : dictGet blocks n with
      | some existing =>
        rw [hb] at h
        dsimp only at h
        by_cases hco : existing.x ≠ cc.x ∨ existing.y ≠ cc.y ∨ existing.z ≠ cc.z
        · rw [if_pos hco] at h
          cases h
          exact ⟨n, hr, hinv _ (dictGet_mem hb)⟩
        · rw [if_neg hco] at h
          exact ih blocks written hinv w e c h
      | none =>
        rw [hb] at h
        dsimp only at h
        refine ih _ _ ?_ w e c h
        intro p hp
        rw [dictInsert_of_get_none cc hb] at hp
        rcases List.mem_append.1 hp with h1 | h1
        · exact List.mem_append.2 (Or.inl (hinv p h1))
        · exact List.mem_append.2 (Or.inr h1)

/-- C8 (amended): when output_io_place aborts on a conflicting constraint,
the rows of the constraints processed before it have already been written
to the output; in particular the earlier record of the conflicting pair
appears among the written rows, under its resolved block name. -/
theorem output_conflict_existing_written (st : IoPlace)
    (w : List (String × IoConstraint)) (e c : IoConstraint)
    (h : output_io_place st = PlaceOut.conflict w e c) :
    ∃ n, resolveName st.net_to_block c.name = some n ∧ (n, e) ∈ w := by
  rw [output_io_place] at h
  by_cases hemp : st.constraints.isEmpty
  · rw [if_pos hemp] at h
    cases h
  · rw [if_neg hemp] at h
    exact outLoop_conflict_inv st.net_to_block st.constraints [] [] (by simp) w e c h

/-- Witness for output_conflict_existing_written on stConflict. -/
theorem output_conflict_existing_written_witness :
    ∃ n, resolveName stConflict.net_to_block cN2.name = some n ∧
      (n, cN1) ∈ [("BLK", cN1)] :=
  output_conflict_existing_written stConflict [("BLK", cN1)] cN1 cN2 (by decide)

/-- C4, counterexample: in stRegular (input A, output B) the output net B
can be constrained twice — the first call stores the record under the
transformed key out:B, so the duplicate assert on the raw name B passes
and the second call succeeds and overwrites instead of failing. -/
theorem constrain_net_duplicate_output_overwrites :
    constrain_net stRegular "B" (1, 2, 0) "pcf1" = Except.ok stRegB ∧
    constrain_net stRegB "B" (3, 4, 5) "pcf2" = Except.ok stRegB2 :=
  ⟨by decide, by decide⟩

/-- C4 (amended): constrain_net always rejects a net name that is unknown
to the alias resolver; the duplicate check, however, compares the raw
argument name with the stored keys, so only a net stored under its own raw
name — one that is neither an output net nor an inout alias — makes a
second constrain_net call on the same name fail; outputs and inout aliases
are stored under transformed keys and a repeated call overwrites them. -/
theorem constrain_net_checks (st : IoPlace) (name : String) (loc loc' : Int × Int × Int)
    (com com' : String) :
    ((dictGet st.constraints name = none) → ¬ is_net st name →
      constrain_net st name loc com = Except.error CErr.unknownNet) ∧
    (name ∉ st.outputs → name ∉ st.inout_nets →
      ∀ st', constrain_net st name loc com = Except.ok st' →
      constrain_net st' name loc' com' = Except.error CErr.duplicateConstraint) := by
  constructor
  · intro hget hnet
    rw [constrain_net]
    rw [if_neg (by simp [hget])]
    rw [if_pos (by simpa using hnet)]
  · intro hout hinout st' hok
    rw [constrain_net] at hok
    by_cases hdup : (dictGet st.constraints name).isSome = true
    · rw [if_pos hdup] at hok
      cases hok
    · rw [if_neg hdup] at hok
      by_cases hnet : ¬ is_net st name = true
      · rw [if_pos hnet] at hok
        cases hok
      · rw [if_neg hnet] at hok
        dsimp only at hok
        rw [if_neg hout] at hok
        rw [if_neg hinout] at hok
        cases hok
        rw [constrain_net]
        rw [if_pos (by simp [dictGet_dictInsert_self])]

/-- Witness for constrain_net_checks: the unknown net Z is rejected, and
the input net A — stored under its raw name — cannot be constrained a
second time. -/
theorem constrain_net_checks_witness :
    constrain_net stRegular "Z" (1, 2, 0) "c" = Except.error CErr.unknownNet ∧
    constrain_net stRegA "A" (3, 4, 5) "d" = Except.error CErr.duplicateConstraint :=
  ⟨(constrain_net_checks stRegular "Z" (1, 2, 0) (3, 4, 5) "c" "d").1 rfl (by decide),
   (constrain_net_checks stRegular "A" (1, 2, 0) (3, 4, 5) "c" "d").2 (by decide)
     (by decide) stRegA (by decide)⟩

/-- C5, counterexample: in stAliasOut the net C is classified as an inout
alias but is also listed among the outputs; constraining it succeeds but
stores a single record under out:C instead of the suffixed pair. -/
theorem constrain_net_alias_output_single :
    constrain_net stAliasOut "C" (1, 2, 0) "pcf" = Except.ok stAliasOutC ∧
    stAliasOutC.constraints.length = 1 :=
  ⟨by decide, by decide⟩

/-- C5 (amended): one successful constrain_net call on a net classified as
an inout alias that is not itself among the output nets stores exactly two
records sharing x, y, z and comment: one under the input-suffixed key
without namespace and one under the output-suffixed key with the out:
namespace, a trailing bus index staying behind the suffix; the two keys
always differ. -/
theorem constrain_net_alias_pairing (st : IoPlace) (a g1 g2 : String)
    (loc : Int × Int × Int) (com : String)
    (h1 : dictGet st.constraints a = none)
    (h2 : is_net st a = true)
    (h3 : a ∉ st.outputs)
    (h4 : a ∈ st.inout_nets)
    (h5 : netnameSplit a = some (g1, g2)) :
    constrain_net st a loc com = Except.ok { st with constraints := dictInsert (dictInsert st.constraints (g1 ++ "_$inp" ++ g2) ⟨g1 ++ "_$inp" ++ g2, loc.1, loc.2.1, loc.2.2, com⟩) ("out:" ++ g1 ++ "_$out" ++ g2) ⟨"out:" ++ g1 ++ "_$out" ++ g2, loc.1, loc.2.1, loc.2.2, com⟩ } ∧
    (g1 ++ "_$inp" ++ g2) ≠ ("out:" ++ g1 ++ "_$out" ++ g2) := by
  constructor
  · rw [constrain_net]
    rw [if_neg (by simp [h1])]
    rw [if_neg (by simp [h2])]
    dsimp only
    rw [if_neg h3, if_pos h4, h5]
  · intro heq
    have hlen := congrArg String.length heq
    have e1 : "out:".length = 4 := rfl
    have e2 : "_$inp".length = 5 := rfl
    have e3 : "_$out".length = 5 := rfl
    simp [String.length_append, e1, e2, e3] at hlen

/-- Witness for constrain_net_alias_pairing: constraining the alias C in
stAlias stores the pair C_$inp and out:C_$out at the shared location. -/
theorem constrain_net_alias_pairing_witness :
    constrain_net stAlias "C" (1, 2, 0) "pcf" = Except.ok { stAlias with constraints := dictInsert (dictInsert stAlias.constraints ("C" ++ "_$inp" ++ "") ⟨"C" ++ "_$inp" ++ "", 1, 2, 0, "pcf"⟩) ("out:" ++ "C" ++ "_$out" ++ "") ⟨"out:" ++ "C" ++ "_$out" ++ "", 1, 2, 0, "pcf"⟩ } ∧
    ("C" ++ "_$inp" ++ "") ≠ ("out:" ++ "C" ++ "_$out" ++ "") :=
  constrain_net_alias_pairing stAlias "C" "C" "" (1, 2, 0) "pcf" rfl (by decide)
    (by decide) (by decide) (by decide)

end VprPlace
